import Mathlib

/-
Verification of the PGN preprocessing pipeline in
`src/python_sf/chess/preprocess_pgn_file.py`.

Strings are modelled as `List Char`; Python dicts (which preserve insertion
order and have unique keys) are modelled as association lists together with
an insert operation that updates in place; the filesystem is modelled as an
association list from file names to file contents, where opening a file in
write mode replaces its content.  `uuid4` is modelled as an injective supply
of identifier strings indexed by the record's position in the run.
-/

abbrev Str := List Char

/-- Python dict assignment `d[k] = v`: if the key is present its value is
updated in place (keeping the key's original position), otherwise the pair
is appended.  Also models opening a file in write mode, which truncates an
existing file or creates a new one. -/
def dictInsert {β : Type} : List (Str × β) → Str → β → List (Str × β)
  | [], k, v => [(k, v)]
  | p :: d, k, v => if p.1 = k then (k, v) :: d else p :: dictInsert d k v

/-- Python dict lookup `d.get(k)` / reading a file by name. -/
def dictGet {β : Type} : List (Str × β) → Str → Option β
  | [], _ => none
  | p :: d, k => if p.1 = k then some p.2 else dictGet d k

/-- Python `d.get(k, default)`. -/
def dictGetD {β : Type} (d : List (Str × β)) (k : Str) (dflt : β) : β :=
  (dictGet d k).getD dflt

/-- Python `d.keys()` in insertion order. -/
def dictKeys {β : Type} (d : List (Str × β)) : List Str :=
  d.map Prod.fst

/-- Modelled from the spec: the external `zstandard` codec (not part of this
repository).  Per section 4.1, a compressed stream is composed of one or more
compression frames and decompression exposes the concatenation of the frame
payloads as a single logical stream. -/
def zstdDecompressed (frames : List Str) : Str :=
  frames.flatten

/-- The chunked copy loop of `_decompress_pgn_file`: repeatedly read up to
16384 bytes of decompressed data and append them to the output file until a
read returns nothing. -/
def copyLoop (rem : Str) : Str :=
  if h : rem = [] then []
  else rem.take 16384 ++ copyLoop (rem.drop 16384)
termination_by rem.length
decreasing_by
  simp only [List.length_drop]
  exact Nat.sub_lt (List.length_pos.mpr h) (by decide)

/-- `_decompress_pgn_file`: stream the decompressed form of the (possibly
multi-frame) input through the chunked copy loop into the output file. -/
def decompressPgnFile (frames : List Str) : Str :=
  copyLoop (zstdDecompressed frames)

/-- The start token of the pattern `\[Event.*?(?:1-0|0-1|1/2-1/2)`. -/
def startTok : Str := "[Event".data

/-- The regex alternation of the three terminal result tokens, tried in
pattern order at a given position: return the length of the token matching
here, if any. -/
def terminalAt (cs : Str) : Option Nat :=
  if "1-0".data.isPrefixOf cs then some 3
  else if "0-1".data.isPrefixOf cs then some 3
  else if "1/2-1/2".data.isPrefixOf cs then some 7
  else none

/-- Lazy `.*?(?:1-0|0-1|1/2-1/2)` with `re.DOTALL`: consume as little as
possible until a terminal token matches, and return the consumed text
(terminal token included) together with the remaining text. -/
def scanTerminal : Str → Option (Str × Str)
  | [] => none
  | c :: cs =>
    match terminalAt (c :: cs) with
    | some n => some ((c :: cs).take n, (c :: cs).drop n)
    | none =>
      match scanTerminal cs with
      | some p => some (c :: p.1, p.2)
      | none => none

/-- One step of `re.findall` scanning for `_split_pgn_games`: at each
position, try to match `\[Event.*?(?:1-0|0-1|1/2-1/2)`; on success emit the
match and resume after it, otherwise advance one character.  The fuel is an
upper bound on the number of scanning steps; `splitPgnGames` supplies the
input length, which always suffices. -/
def splitGo : Nat → Str → List Str
  | 0, _ => []
  | _ + 1, [] => []
  | fuel + 1, c :: cs =>
    if startTok.isPrefixOf (c :: cs) then
      match scanTerminal ((c :: cs).drop startTok.length) with
      | some p => (startTok ++ p.1) :: splitGo fuel p.2
      | none => splitGo fuel cs
    else splitGo fuel cs

/-- `_split_pgn_games`: `re.findall(r"(\[Event.*?(?:1-0|0-1|1/2-1/2))", data,
re.DOTALL)`. -/
def splitPgnGames (data : Str) : List Str :=
  splitGo data.length data

/-- The lazy tail `(.*?)"\]` of the header pattern (no DOTALL, so `.` does
not match a newline): consume as little as possible until `"]`; return the
group text and the remainder after `]`. -/
def scanValue : Str → Option (Str × Str)
  | [] => none
  | [_] => none
  | c :: c2 :: cs =>
    if c == '"' && c2 == ']' then some ([], cs)
    else if c == '\n' then none
    else
      match scanValue (c2 :: cs) with
      | some p => some (c :: p.1, p.2)
      | none => none

/-- ASCII model of the regex class `\w`. -/
def isWordChar (c : Char) : Bool := c.isAlphanum || c == '_'

/-- Match `\[(\w+)\s+"(.*?)"\]` at the current position: `[`, then one or
more word characters (group 1), one or more whitespace characters, `"`, the
lazily matched value (group 2), `"]`.  The two greedy classes are exact here
because `\w` and `\s` are disjoint and neither may match `"`. -/
def matchHeader : Str → Option ((Str × Str) × Str)
  | [] => none
  | c :: cs =>
    if c == '[' then
      let name := cs.takeWhile isWordChar
      let r1 := cs.dropWhile isWordChar
      if name.isEmpty then none
      else if (r1.takeWhile Char.isWhitespace).isEmpty then none
      else
        match r1.dropWhile Char.isWhitespace with
        | [] => none
        | d :: r3 =>
          if d == '"' then (scanValue r3).map (fun p => ((name, p.1), p.2))
          else none
    else none

/-- `re.findall` scanning for the header pattern, fuelled like `splitGo`. -/
def findHeadersGo : Nat → Str → List (Str × Str)
  | 0, _ => []
  | _ + 1, [] => []
  | fuel + 1, c :: cs =>
    match matchHeader (c :: cs) with
    | some p => p.1 :: findHeadersGo fuel p.2
    | none => findHeadersGo fuel cs

/-- `header_pattern.findall(game)` with
`header_pattern = re.compile(r'\[(\w+)\s+"(.*?)"\]')`. -/
def findHeaders (cs : Str) : List (Str × Str) :=
  findHeadersGo cs.length cs

/-- Python `game.split("\n\n", 1)`: split at the first occurrence of a
blank-line separator, if any. -/
def splitFirst : Str → Option (Str × Str)
  | [] => none
  | [_] => none
  | c :: c2 :: cs =>
    if c == '\n' && c2 == '\n' then some ([], cs)
    else
      match splitFirst (c2 :: cs) with
      | some p => some (c :: p.1, p.2)
      | none => none

/-- Whether the text contains the two-character blank-line separator. -/
def containsBlankSep : Str → Bool
  | [] => false
  | [_] => false
  | c :: c2 :: cs => (c == '\n' && c2 == '\n') || containsBlankSep (c2 :: cs)

/-- Python `str.strip()`: drop leading and trailing whitespace. -/
def stripChars (cs : Str) : Str :=
  ((cs.dropWhile Char.isWhitespace).reverse.dropWhile Char.isWhitespace).reverse

/-- Split at every newline; the result always has one more piece than the
number of newlines. -/
def splitSep : Str → List Str
  | [] => [[]]
  | c :: cs =>
    if c == '\n' then [] :: splitSep cs
    else
      match splitSep cs with
      | p :: ps => (c :: p) :: ps
      | [] => [[c]]

/-- Python `str.splitlines()` for newline-separated text: like `splitSep`
but the empty string yields no lines and a trailing newline adds no empty
final line. -/
def splitLinesPy (cs : Str) : List Str :=
  match cs with
  | [] => []
  | _ =>
    match (splitSep cs).getLast? with
    | some [] => (splitSep cs).dropLast
    | _ => splitSep cs

/-- Python `"\n".join(lines)`. -/
def joinNL : List Str → Str
  | [] => []
  | [x] => x
  | x :: xs => x ++ '\n' :: joinNL xs

/-- The move-text extraction of `_convert_pgn_to_dict`: the text after the
first blank-line separator, stripped; if there is no blank-line separator,
all lines not starting with `[`, joined by newlines and stripped. -/
def gameMoves (game : Str) : Str :=
  match splitFirst game with
  | some p => stripChars p.2
  | none =>
    stripChars (joinNL ((splitLinesPy game).filter
      (fun l => !("[".data.isPrefixOf l))))

/-- The per-game body of `_convert_pgn_to_dict`: fill the dict with the
header pairs in order of occurrence (dict assignment makes a later value for
the same name overwrite an earlier one), then set `moves` and `game_id`. -/
def convertGame (game : Str) (gid : Str) : List (Str × Str) :=
  let d := (findHeaders game).foldl (fun d p => dictInsert d p.1 p.2) []
  let d := dictInsert d "moves".data (gameMoves game)
  dictInsert d "game_id".data gid

/-- `_convert_pgn_to_dict`: convert every game, giving the record at
position `i` the fresh identifier `ids i`. -/
def convertPgnToDict (games : List Str) (ids : Nat → Str) :
    List (List (Str × Str)) :=
  games.enum.map (fun p => convertGame p.2 (ids p.1))

/-- One field of the generated Avro schema. -/
structure AvroField where
  name : Str
  ftype : Str
deriving DecidableEq, Repr

/-- The Avro schema dict produced by `_get_avro_schema` (fixed keys
`namespace`, `type`, `name`, `fields`). -/
structure AvroSchema where
  ns : Str
  rtype : Str
  rname : Str
  fields : List AvroField
deriving DecidableEq, Repr

/-- `_get_avro_schema`: raise `ValueError` on an empty record list,
otherwise build the schema from the keys of the first record, every field
typed `string`. -/
def getAvroSchema (structuredGames : List (List (Str × Str))) :
    Except Str AvroSchema :=
  match structuredGames with
  | [] => Except.error "No games available to generate schema.".data
  | r :: _ =>
    Except.ok
      { ns := "com.example.pgn".data
        rtype := "record".data
        rname := "Game".data
        fields := (dictKeys r).map (fun k => ⟨k, "string".data⟩) }

/-- Content of one output file. -/
inductive FileData where
  | avro (schema : AvroSchema) (records : List (List (Str × Str)))
  | text (content : Str)
deriving DecidableEq

/-- The working directory as a map from file names to contents. -/
abbrev FS := List (Str × FileData)

/-- The manifest text written by `_add_game_id_to_list_of_files`: one
`game_id` per record, `"unknown"` if the record lacks the key, each followed
by a newline. -/
def manifestContent (structuredGames : List (List (Str × Str))) : Str :=
  (structuredGames.map
    (fun r => dictGetD r "game_id".data "unknown".data ++ ['\n'])).flatten

/-- `_add_game_id_to_list_of_files`: `open("games", "w")` truncates or
creates the manifest file and writes the game ids, one per line. -/
def addGameIdToListOfFiles (structuredGames : List (List (Str × Str)))
    (fs : FS) : FS :=
  dictInsert fs "games".data (FileData.text (manifestContent structuredGames))

/-- `_write_avro_file`: for each record, `open(f"{game_id}.avro", "wb")`
(truncating any existing file of that name) and write the single record
under the schema; finally write the manifest. -/
def writeAvroFile (structuredGames : List (List (Str × Str)))
    (schema : AvroSchema) (fs : FS) : FS :=
  addGameIdToListOfFiles structuredGames
    (structuredGames.foldl
      (fun fs r =>
        dictInsert fs (dictGetD r "game_id".data "unknown".data ++ ".avro".data)
          (FileData.avro schema [r]))
      fs)

/-- `preprocess_pgn` after decompression: split, convert, infer the schema
(propagating its `ValueError`, in which case nothing is written), then write
the per-game files and the manifest. -/
def runPipeline (data : Str) (ids : Nat → Str) (fs : FS) : Except Str FS :=
  let games := splitPgnGames data
  let structuredGames := convertPgnToDict games ids
  match getAvroSchema structuredGames with
  | Except.error e => Except.error e
  | Except.ok schema => Except.ok (writeAvroFile structuredGames schema fs)

/-- The three terminal result tokens. -/
def terminalToks : List Str := ["1-0".data, "0-1".data, "1/2-1/2".data]

/-- Every character occurring in some terminal result token. -/
def tokenAlphabet : Str := ['1', '-', '0', '/', '2']

/-- All characters are whitespace. -/
def allWS (cs : Str) : Bool := cs.all Char.isWhitespace

/-- No terminal result token matches at any of the first `n` positions. -/
def noEarlyTerminal : Str → Nat → Bool
  | _, 0 => true
  | [], _ + 1 => true
  | c :: cs, k + 1 => (terminalAt (c :: cs)).isNone && noEarlyTerminal cs k

/-- A well-formed game description `(m, t, w)`: the game text is
`startTok ++ m ++ t` where `t` is a terminal result token and no terminal
token occurs before the final one; `w` is the whitespace following the
game. -/
def wfGame (x : Str × Str × Str) : Prop :=
  x.2.1 ∈ terminalToks ∧
  noEarlyTerminal (x.1 ++ x.2.1) x.1.length = true ∧
  allWS x.2.2 = true

instance (x : Str × Str × Str) : Decidable (wfGame x) :=
  inferInstanceAs (Decidable (x.2.1 ∈ terminalToks ∧
    noEarlyTerminal (x.1 ++ x.2.1) x.1.length = true ∧ allWS x.2.2 = true))

/-- Concatenate well-formed games, each followed by its whitespace. -/
def renderGames : List (Str × Str × Str) → Str
  | [] => []
  | x :: xs => startTok ++ x.1 ++ x.2.1 ++ x.2.2 ++ renderGames xs

/-- The head of the text, if any, is not a character of a terminal token. -/
def headSafe : Str → Prop
  | [] => True
  | c :: _ => c ∉ tokenAlphabet

/-- Render one header line `[<Name> "<Value>"]`. -/
def renderHeader (p : Str × Str) : Str :=
  '[' :: p.1 ++ ' ' :: '"' :: p.2 ++ ['"', ']']

/-- Concatenate header lines, each terminated by a newline. -/
def renderHeaderLines : List (Str × Str) → Str
  | [] => []
  | p :: ps => renderHeader p ++ '\n' :: renderHeaderLines ps

/-! Association-list lemmas shared by the dict and filesystem models. -/

theorem dictGet_insert_self {β : Type} (d : List (Str × β)) (k : Str) (v : β) :
    dictGet (dictInsert d k v) k = some v := by
  induction d with
  | nil => simp [dictInsert, dictGet]
  | cons p d ih =>
    by_cases h : p.1 = k
    · simp [dictInsert, dictGet, h]
    · simp [dictInsert, dictGet, h, ih]

theorem dictGet_insert_other {β : Type} (d : List (Str × β)) (k k' : Str) (v : β)
    (h : k ≠ k') : dictGet (dictInsert d k v) k' = dictGet d k' := by
  induction d with
  | nil => simp [dictInsert, dictGet, h]
  | cons p d ih =>
    by_cases hp : p.1 = k
    · simp [dictInsert, dictGet, hp, h]
    · simp only [dictInsert, hp, if_false]
      by_cases hp' : p.1 = k'
      · simp [dictGet, hp']
      · simp [dictGet, hp', ih]

theorem dictKeys_insert_new {β : Type} (d : List (Str × β)) (k : Str) (v : β)
    (h : k ∉ dictKeys d) : dictKeys (dictInsert d k v) = dictKeys d ++ [k] := by
  induction d with
  | nil => rfl
  | cons p d ih =>
    have h1 : ¬ p.1 = k := by
      intro hh
      apply h
      show k ∈ p.1 :: dictKeys d
      rw [hh]
      exact List.mem_cons_self _ _
    have h2 : k ∉ dictKeys d := by
      intro hh
      apply h
      show k ∈ p.1 :: dictKeys d
      exact List.mem_cons_of_mem _ hh
    calc dictKeys (dictInsert (p :: d) k v)
        = p.1 :: dictKeys (dictInsert d k v) := by
          simp [dictInsert, h1, dictKeys]
      _ = p.1 :: (dictKeys d ++ [k]) := by rw [ih h2]
      _ = dictKeys (p :: d) ++ [k] := by simp [dictKeys]

theorem dictKeys_insert_old {β : Type} (d : List (Str × β)) (k : Str) (v : β)
    (h : k ∈ dictKeys d) : dictKeys (dictInsert d k v) = dictKeys d := by
  induction d with
  | nil => simp [dictKeys] at h
  | cons p d ih =>
    by_cases hp : p.1 = k
    · simp [dictInsert, hp, dictKeys]
    · simp only [dictKeys, List.map_cons, List.mem_cons] at h
      rcases h with h | h
      · exact absurd h.symm hp
      · calc dictKeys (dictInsert (p :: d) k v)
            = p.1 :: dictKeys (dictInsert d k v) := by
              simp [dictInsert, hp, dictKeys]
          _ = p.1 :: dictKeys d := by rw [ih h]
          _ = dictKeys (p :: d) := by simp [dictKeys]

theorem foldl_dictInsert_get_notMem (hs : List (Str × Str)) (k : Str)
    (d0 : List (Str × Str)) (h : hs.filter (fun q => q.1 == k) = []) :
    dictGet (hs.foldl (fun d q => dictInsert d q.1 q.2) d0) k = dictGet d0 k := by
  induction hs generalizing d0 with
  | nil => rfl
  | cons q hs ih =>
    rw [List.filter_cons] at h
    by_cases hq : q.1 = k
    · simp [hq] at h
    · simp only [beq_iff_eq, hq, if_false] at h
      simp only [List.foldl_cons]
      rw [ih _ h, dictGet_insert_other _ _ _ _ hq]

theorem foldl_dictInsert_get_last (hs : List (Str × Str)) (k : Str)
    (d0 : List (Str × Str)) (p : Str × Str)
    (h : (hs.filter (fun q => q.1 == k)).getLast? = some p) :
    dictGet (hs.foldl (fun d q => dictInsert d q.1 q.2) d0) k = some p.2 := by
  induction hs generalizing d0 with
  | nil => simp at h
  | cons q hs ih =>
    simp only [List.foldl_cons]
    rcases hfil : hs.filter (fun q => q.1 == k) with _ | ⟨r, rs⟩
    · rw [List.filter_cons, hfil] at h
      by_cases hq : q.1 = k
      · simp only [beq_iff_eq, hq, if_true, List.getLast?_singleton,
          Option.some.injEq] at h
        subst h
        rw [foldl_dictInsert_get_notMem _ _ _ hfil, hq, dictGet_insert_self]
      · simp [hq] at h
    · have hne : hs.filter (fun q => q.1 == k) ≠ [] := by simp [hfil]
      rw [List.filter_cons] at h
      have h' : (hs.filter (fun q => q.1 == k)).getLast? = some p := by
        by_cases hq : (q.1 == k) = true
        · rw [if_pos hq] at h
          rw [show q :: hs.filter (fun q => q.1 == k) =
              [q] ++ hs.filter (fun q => q.1 == k) from rfl] at h
          rwa [List.getLast?_append_of_ne_nil _ hne] at h
        · rwa [if_neg hq] at h
      exact ih _ h'

/-! Decompression lemmas (C3). -/

theorem copyLoop_bounded : ∀ (n : Nat) (rem : Str), rem.length ≤ n →
    copyLoop rem = rem := by
  intro n
  induction n with
  | zero =>
    intro rem h
    have hz : rem = [] := List.length_eq_zero.mp (Nat.le_zero.mp h)
    subst hz
    rw [copyLoop]
    simp
  | succ n ih =>
    intro rem h
    rw [copyLoop]
    by_cases hz : rem = []
    · simp [hz]
    · have hlen : (rem.drop 16384).length ≤ n := by
        have h1 : 0 < rem.length := List.length_pos.mpr hz
        simp only [List.length_drop]
        omega
      simp only [hz, dite_false]
      rw [ih _ hlen, List.take_append_drop]

theorem copyLoop_eq_self (rem : Str) : copyLoop rem = rem :=
  copyLoop_bounded rem.length rem le_rfl

theorem convertPgnToDict_cons (g : Str) (gs : List Str) (ids : Nat → Str) :
    convertPgnToDict (g :: gs) ids =
      convertGame g (ids 0) :: convertPgnToDict gs (fun n => ids (n + 1)) := by
  simp only [convertPgnToDict, List.enum_cons', List.map_cons, List.map_map]
  rfl

/-- C3: decompressing a zstd stream whose frame payloads concatenate to the
text `T` yields exactly `T`, both for a single-frame stream `[T]` and for
any multi-frame stream. -/
theorem decompressPgnFile_roundTrip (T : Str) (frames : List Str)
    (h : frames.flatten = T) :
    decompressPgnFile frames = T ∧ decompressPgnFile [T] = T := by
  constructor
  · unfold decompressPgnFile zstdDecompressed
    rw [copyLoop_eq_self, h]
  · unfold decompressPgnFile zstdDecompressed
    rw [copyLoop_eq_self]
    simp

theorem decompressPgnFile_roundTrip_witness :
    ([['a'], ['b', 'c']] : List Str).flatten = ['a', 'b', 'c'] ∧
    (decompressPgnFile [['a'], ['b', 'c']] = ['a', 'b', 'c'] ∧
      decompressPgnFile [['a', 'b', 'c']] = ['a', 'b', 'c']) :=
  ⟨by decide, decompressPgnFile_roundTrip ['a', 'b', 'c'] [['a'], ['b', 'c']]
    (by decide)⟩

/-- C9: schema inference on an empty record list fails with an error (the
code raises `ValueError("No games available to generate schema.")`) rather
than returning a schema. -/
theorem getAvroSchema_empty_fails :
    getAvroSchema [] =
      Except.error "No games available to generate schema.".data := rfl

/-- C10: whatever the prior content of the filesystem (in particular of the
`games` file), after `_add_game_id_to_list_of_files` the manifest's content
is exactly the `game_id` of each record passed in (`"unknown"` for a record
lacking the key), one per line: the file is truncated and rewritten, never
appended to. -/
theorem addGameId_truncates (fs : FS) (records : List (List (Str × Str))) :
    dictGet (addGameIdToListOfFiles records fs) "games".data =
      some (FileData.text ((records.map
        (fun r => dictGetD r "game_id".data "unknown".data ++ ['\n'])).flatten)) :=
  dictGet_insert_self _ _ _

/-- C5 counterexample: serializing a record whose `game_id` names an
artifact that already exists does not fail; the existing artifact is
silently replaced by the new record. -/
theorem writeAvroFile_overwrites_existing :
    dictGet [("X.avro".data, FileData.text "old".data)] "X.avro".data =
      some (FileData.text "old".data) ∧
    writeAvroFile [[("game_id".data, "X".data)]]
        ⟨"com.example.pgn".data, "record".data, "Game".data,
          [⟨"game_id".data, "string".data⟩]⟩
        [("X.avro".data, FileData.text "old".data)] =
      [("X.avro".data,
        FileData.avro
          ⟨"com.example.pgn".data, "record".data, "Game".data,
            [⟨"game_id".data, "string".data⟩]⟩
          [[("game_id".data, "X".data)]]),
       ("games".data, FileData.text "X\n".data)] ∧
    FileData.avro
        ⟨"com.example.pgn".data, "record".data, "Game".data,
          [⟨"game_id".data, "string".data⟩]⟩
        [[("game_id".data, "X".data)]] ≠
      FileData.text "old".data := by
  refine ⟨rfl, rfl, ?_⟩
  decide

/-- C5 amended: each serialization call writes the record to the artifact
named `<game_id>.avro`, replacing any existing artifact of that name
without any duplicate check or error. -/
theorem writeAvroFile_replaces (fs : FS) (schema : AvroSchema)
    (r : List (Str × Str)) :
    dictGet (writeAvroFile [r] schema fs)
      (dictGetD r "game_id".data "unknown".data ++ ".avro".data) =
      some (FileData.avro schema [r]) := by
  have hne : "games".data ≠
      dictGetD r "game_id".data "unknown".data ++ ".avro".data := by
    intro h
    have hlen := congrArg List.length h
    rw [List.length_append] at hlen
    have h5 : ("games".data).length = 5 := rfl
    have h5' : (".avro".data).length = 5 := rfl
    rw [h5, h5'] at hlen
    have hg : (dictGetD r "game_id".data "unknown".data).length = 0 := by omega
    have hgnil : dictGetD r "game_id".data "unknown".data = [] :=
      List.length_eq_zero.mp hg
    rw [hgnil, List.nil_append] at h
    exact absurd h (by decide)
  unfold writeAvroFile addGameIdToListOfFiles
  rw [dictGet_insert_other _ _ _ _ hne]
  simp only [List.foldl_cons, List.foldl_nil]
  exact dictGet_insert_self _ _ _

/-- C2 counterexample: on an input whose only extracted segment has no
header tag lines, the run does not abort: parsing succeeds with a record
holding only `moves` and `game_id`, every file is written, and the manifest
is produced. -/
theorem runPipeline_noHeaders_succeeds :
    findHeaders "[Event 1-0".data = [] ∧
    runPipeline "[Event 1-0".data (fun _ => "g0".data) [] =
      Except.ok
        [("g0.avro".data,
          FileData.avro
            ⟨"com.example.pgn".data, "record".data, "Game".data,
              [⟨"moves".data, "string".data⟩, ⟨"game_id".data, "string".data⟩]⟩
            [[("moves".data, []), ("game_id".data, "g0".data)]]),
         ("games".data, FileData.text "g0\n".data)] := by
  refine ⟨rfl, ?_⟩
  rfl

/-- C2 amended: a run whose first extracted segment contains no header tag
lines does not fail: no malformed-game error exists in the code, the record
is built from `moves` and `game_id` alone, the run completes, and the
manifest file is produced. -/
theorem runPipeline_producesManifest (data : Str) (ids : Nat → Str) (fs : FS)
    (g : Str) (gs : List Str) (hsplit : splitPgnGames data = g :: gs)
    (hnohdr : findHeaders g = []) :
    ∃ fsOut, runPipeline data ids fs = Except.ok fsOut ∧
      dictGet fsOut "games".data =
        some (FileData.text (manifestContent (convertPgnToDict (g :: gs) ids))) := by
  unfold runPipeline
  rw [hsplit, convertPgnToDict_cons]
  refine ⟨_, rfl, ?_⟩
  rw [← convertPgnToDict_cons]
  exact dictGet_insert_self _ _ _

theorem runPipeline_producesManifest_witness :
    (splitPgnGames "[Event 1-0".data = ["[Event 1-0".data] ∧
      findHeaders "[Event 1-0".data = []) ∧
    ∃ fsOut, runPipeline "[Event 1-0".data (fun _ => "g0".data) [] =
        Except.ok fsOut ∧
      dictGet fsOut "games".data =
        some (FileData.text (manifestContent
          (convertPgnToDict ["[Event 1-0".data] (fun _ => "g0".data)))) :=
  ⟨⟨rfl, rfl⟩, runPipeline_producesManifest "[Event 1-0".data
    (fun _ => "g0".data) [] "[Event 1-0".data [] rfl rfl⟩

/-! Splitter lemmas (C1). -/

theorem isPrefixOf_append_left : ∀ (p r : Str), p.isPrefixOf (p ++ r) = true
  | [], r => by cases r <;> rfl
  | c :: p, r => by
    simp only [List.cons_append, List.isPrefixOf, beq_self_eq_true, Bool.true_and]
    exact isPrefixOf_append_left p r

theorem isPrefixOf_append_false (p : Str) : ∀ (xs rest : Str),
    p.isPrefixOf xs = false → (∀ c ∈ p, rest.head? ≠ some c) →
    p.isPrefixOf (xs ++ rest) = false := by
  induction p with
  | nil => intro xs rest h _; simp [List.isPrefixOf] at h
  | cons q p ih =>
    intro xs rest h hr
    cases xs with
    | nil =>
      cases rest with
      | nil => rfl
      | cons c r' =>
        have hq : ¬ q = c := by
          intro hh
          exact hr q (List.mem_cons_self _ _) (by rw [hh]; rfl)
        simp [List.isPrefixOf, beq_eq_false_iff_ne.mpr hq]
    | cons x xs' =>
      simp only [List.cons_append, List.isPrefixOf, Bool.and_eq_false_iff] at h ⊢
      rcases h with h | h
      · exact Or.inl h
      · exact Or.inr (ih xs' rest h (fun c hc => hr c (List.mem_cons_of_mem _ hc)))

theorem terminalAt_eq_none_iff (cs : Str) : terminalAt cs = none ↔
    "1-0".data.isPrefixOf cs = false ∧ "0-1".data.isPrefixOf cs = false ∧
    "1/2-1/2".data.isPrefixOf cs = false := by
  unfold terminalAt
  split_ifs with h1 h2 h3
  · simp [h1]
  · simp [h2]
  · simp [h3]
  · simp only [Bool.not_eq_true] at h1 h2 h3
    simp [h1, h2, h3]

theorem headSafe_no_tok (rest : Str) (hs : headSafe rest) (tok : Str)
    (htok : ∀ c ∈ tok, c ∈ tokenAlphabet) : ∀ c ∈ tok, rest.head? ≠ some c := by
  intro c hc heq
  cases rest with
  | nil => simp at heq
  | cons rh rt =>
    simp only [List.head?, Option.some.injEq] at heq
    exact hs (heq ▸ htok c hc)

theorem terminalAt_none_append (xs rest : Str) (h : terminalAt xs = none)
    (hs : headSafe rest) : terminalAt (xs ++ rest) = none := by
  rw [terminalAt_eq_none_iff] at h ⊢
  obtain ⟨h1, h2, h3⟩ := h
  refine ⟨?_, ?_, ?_⟩
  · exact isPrefixOf_append_false _ xs rest h1
      (headSafe_no_tok rest hs _ (by decide))
  · exact isPrefixOf_append_false _ xs rest h2
      (headSafe_no_tok rest hs _ (by decide))
  · exact isPrefixOf_append_false _ xs rest h3
      (headSafe_no_tok rest hs _ (by decide))

theorem terminalAt_tok (t : Str) (ht : t ∈ terminalToks) (rest : Str) :
    terminalAt (t ++ rest) = some t.length := by
  simp only [terminalToks, List.mem_cons, List.not_mem_nil, or_false] at ht
  rcases ht with rfl | rfl | rfl
  · unfold terminalAt
    rw [if_pos (isPrefixOf_append_left _ _)]
    rfl
  · unfold terminalAt
    rw [if_neg (by rw [show ("1-0".data.isPrefixOf ("0-1".data ++ rest)) = false
        from rfl]; exact Bool.false_ne_true),
      if_pos (isPrefixOf_append_left _ _)]
    rfl
  · unfold terminalAt
    rw [if_neg (by rw [show ("1-0".data.isPrefixOf ("1/2-1/2".data ++ rest)) = false
        from rfl]; exact Bool.false_ne_true),
      if_neg (by rw [show ("0-1".data.isPrefixOf ("1/2-1/2".data ++ rest)) = false
        from rfl]; exact Bool.false_ne_true),
      if_pos (isPrefixOf_append_left _ _)]
    rfl

theorem scanTerminal_here (cs : Str) (n : Nat) (h : terminalAt cs = some n)
    (hne : cs ≠ []) : scanTerminal cs = some (cs.take n, cs.drop n) := by
  cases cs with
  | nil => exact absurd rfl hne
  | cons c cs' => simp only [scanTerminal, h]

theorem scanTerminal_cons_none (c : Char) (cs : Str)
    (h : terminalAt (c :: cs) = none) :
    scanTerminal (c :: cs) =
      (scanTerminal cs).map (fun p => (c :: p.1, p.2)) := by
  simp only [scanTerminal, h]
  cases scanTerminal cs <;> rfl

theorem terminalToks_ne_nil (t : Str) (ht : t ∈ terminalToks) : t ≠ [] := by
  simp only [terminalToks, List.mem_cons, List.not_mem_nil, or_false] at ht
  rcases ht with rfl | rfl | rfl <;> simp

theorem scanTerminal_exact (m : Str) : ∀ (t rest : Str), t ∈ terminalToks →
    noEarlyTerminal (m ++ t) m.length = true → headSafe rest →
    scanTerminal (m ++ (t ++ rest)) = some (m ++ t, rest) := by
  induction m with
  | nil =>
    intro t rest ht _ _
    rw [List.nil_append, List.nil_append,
      scanTerminal_here (t ++ rest) t.length (terminalAt_tok t ht rest)
        (by simp [terminalToks_ne_nil t ht]),
      List.take_left, List.drop_left]
  | cons a m' ih =>
    intro t rest ht hm hrest
    simp only [List.cons_append, List.length_cons, noEarlyTerminal,
      Bool.and_eq_true, Option.isNone_iff_eq_none] at hm
    obtain ⟨h1, h2⟩ := hm
    have h1' : terminalAt (a :: (m' ++ (t ++ rest))) = none := by
      have := terminalAt_none_append (a :: (m' ++ t)) rest h1 hrest
      simpa [List.append_assoc] using this
    rw [List.cons_append, scanTerminal_cons_none a _ h1', ih t rest ht h2 hrest]
    rfl

theorem terminalAt_pos (cs : Str) (n : Nat) (h : terminalAt cs = some n) :
    0 < n := by
  unfold terminalAt at h
  split_ifs at h
  · rw [Option.some.injEq] at h; omega
  · rw [Option.some.injEq] at h; omega
  · rw [Option.some.injEq] at h; omega

theorem scanTerminal_shape (cs : Str) : ∀ p, scanTerminal cs = some p →
    p.1 ++ p.2 = cs ∧ p.1 ≠ [] := by
  induction cs with
  | nil => intro p h; simp [scanTerminal] at h
  | cons c cs' ih =>
    intro p h
    cases hterm : terminalAt (c :: cs') with
    | some n =>
      rw [scanTerminal_here _ n hterm (by simp)] at h
      obtain rfl : ((c :: cs').take n, (c :: cs').drop n) = p :=
        Option.some.inj h
      refine ⟨List.take_append_drop _ _, ?_⟩
      obtain ⟨n', rfl⟩ := Nat.exists_eq_succ_of_ne_zero
        (Nat.pos_iff_ne_zero.mp (terminalAt_pos _ _ hterm))
      simp [List.take_cons]
    | none =>
      rw [scanTerminal_cons_none _ _ hterm] at h
      cases hs : scanTerminal cs' with
      | none => rw [hs] at h; simp at h
      | some q =>
        rw [hs] at h
        obtain rfl : (c :: q.1, q.2) = p := Option.some.inj h
        obtain ⟨hq1, _⟩ := ih q hs
        exact ⟨by simp [hq1], by simp⟩

theorem scanTerminal_rest_lt (cs : Str) (p : Str × Str)
    (h : scanTerminal cs = some p) : p.2.length < cs.length := by
  obtain ⟨happ, hne⟩ := scanTerminal_shape cs p h
  have := congrArg List.length happ
  rw [List.length_append] at this
  have : 0 < p.1.length := List.length_pos.mpr hne
  omega

theorem splitGo_congr : ∀ (f1 f2 : Nat) (cs : Str),
    cs.length ≤ f1 → cs.length ≤ f2 → splitGo f1 cs = splitGo f2 cs := by
  intro f1
  induction f1 with
  | zero =>
    intro f2 cs h1 _
    have hz : cs = [] := List.length_eq_zero.mp (Nat.le_zero.mp h1)
    subst hz
    cases f2 <;> rfl
  | succ f ih =>
    intro f2 cs h1 h2
    cases cs with
    | nil => cases f2 <;> rfl
    | cons c cs' =>
      cases f2 with
      | zero => simp at h2
      | succ f2' =>
        simp only [List.length_cons, Nat.succ_le_succ_iff] at h1 h2
        simp only [splitGo]
        by_cases hp : startTok.isPrefixOf (c :: cs') = true
        · rw [if_pos hp, if_pos hp]
          cases hscan : scanTerminal ((c :: cs').drop startTok.length) with
          | some p =>
            have hlt := scanTerminal_rest_lt _ _ hscan
            simp only [List.length_drop, List.length_cons,
              show startTok.length = 6 from rfl] at hlt
            show (startTok ++ p.1) :: splitGo f p.2 =
              (startTok ++ p.1) :: splitGo f2' p.2
            congr 1
            exact ih f2' p.2 (by omega) (by omega)
          | none => exact ih f2' cs' h1 h2
        · rw [if_neg hp, if_neg hp]
          exact ih f2' cs' h1 h2

theorem splitPgnGames_cons_no (c : Char) (cs : Str)
    (h : startTok.isPrefixOf (c :: cs) = false) :
    splitPgnGames (c :: cs) = splitPgnGames cs := by
  unfold splitPgnGames
  simp only [List.length_cons, splitGo, h, Bool.false_eq_true, if_false]

theorem splitPgnGames_match (cs : Str) (p : Str × Str) (hne : cs ≠ [])
    (hpre : startTok.isPrefixOf cs = true)
    (hscan : scanTerminal (cs.drop startTok.length) = some p) :
    splitPgnGames cs = (startTok ++ p.1) :: splitPgnGames p.2 := by
  cases cs with
  | nil => exact absurd rfl hne
  | cons c cs' =>
    unfold splitPgnGames
    simp only [List.length_cons, splitGo, hpre, if_true, hscan]
    congr 1
    have hlt := scanTerminal_rest_lt _ _ hscan
    simp only [List.length_drop, List.length_cons,
      show startTok.length = 6 from rfl] at hlt
    exact splitGo_congr cs'.length p.2.length p.2 (by omega) le_rfl

theorem startTok_not_at (c : Char) (cs : Str) (h : ¬ c = '[') :
    startTok.isPrefixOf (c :: cs) = false := by
  rw [show startTok = '[' :: ['E', 'v', 'e', 'n', 't'] from rfl]
  simp [List.isPrefixOf, beq_eq_false_iff_ne.mpr (Ne.symm h)]

theorem splitPgn_ws_prepend (w : Str) : ∀ (t : Str), allWS w = true →
    splitPgnGames (w ++ t) = splitPgnGames t := by
  induction w with
  | nil => intro t _; rfl
  | cons c w' ih =>
    intro t hw
    simp only [allWS, List.all_cons, Bool.and_eq_true] at hw
    have hcne : ¬ c = '[' := by
      intro hh
      rw [hh] at hw
      exact absurd hw.1 (by decide)
    rw [List.cons_append, splitPgnGames_cons_no c _ (startTok_not_at c _ hcne),
      ih t hw.2]

theorem headSafe_renderGames (ps : List (Str × Str × Str)) :
    headSafe (renderGames ps) := by
  cases ps with
  | nil => trivial
  | cons x xs =>
    show ('[' : Char) ∉ tokenAlphabet
    decide

theorem headSafe_ws_games (w : Str) (hw : allWS w = true)
    (ps : List (Str × Str × Str)) : headSafe (w ++ renderGames ps) := by
  cases w with
  | nil => simpa using headSafe_renderGames ps
  | cons c w' =>
    simp only [allWS, List.all_cons, Bool.and_eq_true] at hw
    show c ∉ tokenAlphabet
    intro hmem
    simp only [tokenAlphabet, List.mem_cons, List.not_mem_nil, or_false] at hmem
    rcases hmem with rfl | rfl | rfl | rfl | rfl <;>
      exact absurd hw.1 (by decide)

theorem renderGames_ne_nil (x : Str × Str × Str) (xs : List (Str × Str × Str)) :
    renderGames (x :: xs) ≠ [] := by
  simp [renderGames, startTok]

theorem splitPgnGames_renderGames (ps : List (Str × Str × Str))
    (hps : ∀ x ∈ ps, wfGame x) :
    splitPgnGames (renderGames ps) =
      ps.map (fun x => startTok ++ x.1 ++ x.2.1) := by
  induction ps with
  | nil => rfl
  | cons x xs ih =>
    obtain ⟨ht, hm, hw⟩ := hps x (List.mem_cons_self _ _)
    have hrender : renderGames (x :: xs) =
        startTok ++ (x.1 ++ (x.2.1 ++ (x.2.2 ++ renderGames xs))) := by
      simp [renderGames, List.append_assoc]
    have hscan : scanTerminal
        ((renderGames (x :: xs)).drop startTok.length) =
        some (x.1 ++ x.2.1, x.2.2 ++ renderGames xs) := by
      rw [hrender, List.drop_left]
      exact scanTerminal_exact x.1 x.2.1 (x.2.2 ++ renderGames xs) ht hm
        (headSafe_ws_games x.2.2 hw xs)
    rw [splitPgnGames_match (renderGames (x :: xs))
        (x.1 ++ x.2.1, x.2.2 ++ renderGames xs) (renderGames_ne_nil x xs)
        (by rw [hrender]; exact isPrefixOf_append_left _ _) hscan,
      splitPgn_ws_prepend x.2.2 _ hw,
      ih (fun y hy => hps y (List.mem_cons_of_mem _ hy))]
    simp [List.append_assoc]

/-- C1: for input consisting of `N` well-formed games (each starting with
the token `[Event` and ending at its unique terminal result token, with no
terminal token occurring earlier in the game, newlines allowed anywhere)
concatenated with arbitrary surrounding whitespace, `_split_pgn_games`
returns exactly the `N` game texts, in order of occurrence, each starting
with the start token and ending with its terminal token. -/
theorem splitPgnGames_wellFormed (w0 : Str) (ps : List (Str × Str × Str))
    (hw0 : allWS w0 = true) (hps : ∀ x ∈ ps, wfGame x) :
    splitPgnGames (w0 ++ renderGames ps) =
      ps.map (fun x => startTok ++ x.1 ++ x.2.1) := by
  rw [splitPgn_ws_prepend w0 _ hw0, splitPgnGames_renderGames ps hps]

theorem splitPgnGames_wellFormed_witness :
    (allWS " \n".data = true ∧
      ∀ x ∈ ([(" \"A\"]\n\n1. e4 e5 ".data, "1-0".data, "\n\n".data),
        (" \"B\"]\n1. d4 ".data, "1/2-1/2".data, "\n".data)] :
          List (Str × Str × Str)), wfGame x) ∧
    splitPgnGames (" \n".data ++ renderGames
        [(" \"A\"]\n\n1. e4 e5 ".data, "1-0".data, "\n\n".data),
         (" \"B\"]\n1. d4 ".data, "1/2-1/2".data, "\n".data)]) =
      ["[Event \"A\"]\n\n1. e4 e5 1-0".data,
       "[Event \"B\"]\n1. d4 1/2-1/2".data] :=
  ⟨⟨by decide, by decide⟩,
    splitPgnGames_wellFormed " \n".data
      [(" \"A\"]\n\n1. e4 e5 ".data, "1-0".data, "\n\n".data),
       (" \"B\"]\n1. d4 ".data, "1/2-1/2".data, "\n".data)]
      (by decide) (by decide)⟩

/-! Parser lemmas (C6, C7). -/

theorem takeWhile_all_append (p : Char → Bool) (l : Str) (c : Char) (r : Str)
    (hl : ∀ a ∈ l, p a = true) (hc : p c = false) :
    (l ++ c :: r).takeWhile p = l ∧ (l ++ c :: r).dropWhile p = c :: r := by
  induction l with
  | nil =>
    constructor
    · rw [List.nil_append, List.takeWhile_cons, hc]
      simp
    · rw [List.nil_append, List.dropWhile_cons, hc]
      simp
  | cons a l' ih =>
    have ha : p a = true := hl a (List.mem_cons_self _ _)
    obtain ⟨ih1, ih2⟩ := ih (fun b hb => hl b (List.mem_cons_of_mem _ hb))
    constructor
    · rw [List.cons_append, List.takeWhile_cons, ha]
      simp [ih1]
    · rw [List.cons_append, List.dropWhile_cons, ha]
      simp [ih2]

theorem scanValue_cons (c c2 : Char) (cs : Str) :
    scanValue (c :: c2 :: cs) =
      if c == '"' && c2 == ']' then some ([], cs)
      else if c == '\n' then none
      else (scanValue (c2 :: cs)).map (fun p => (c :: p.1, p.2)) := by
  simp only [scanValue]
  cases scanValue (c2 :: cs) <;> rfl

theorem scanValue_exact (v : Str) : ∀ (rest : Str),
    (∀ c ∈ v, ¬ c = '"' ∧ ¬ c = '\n') →
    scanValue (v ++ '"' :: ']' :: rest) = some (v, rest) := by
  induction v with
  | nil => intro rest _; rfl
  | cons a v' ih =>
    intro rest hv
    obtain ⟨ha1, ha2⟩ := hv a (List.mem_cons_self _ _)
    have hc1 : (a == '"') = false := beq_eq_false_iff_ne.mpr ha1
    have hc2 : (a == '\n') = false := beq_eq_false_iff_ne.mpr ha2
    cases v' with
    | nil =>
      rw [show ([a] ++ '"' :: ']' :: rest) = a :: '"' :: ']' :: rest from rfl,
        scanValue_cons,
        show scanValue ('"' :: ']' :: rest) = some ([], rest) from rfl]
      simp [hc1, hc2]
    | cons b v'' =>
      have ih' := ih rest (fun c hc => hv c (List.mem_cons_of_mem _ hc))
      rw [List.cons_append] at ih' ⊢
      rw [List.cons_append, scanValue_cons, ih']
      simp [hc1, hc2]

theorem scanValue_append (cs : Str) : ∀ p, scanValue cs = some p →
    cs = p.1 ++ '"' :: ']' :: p.2 := by
  induction cs with
  | nil => intro p h; simp [scanValue] at h
  | cons c rest ih =>
    cases rest with
    | nil => intro p h; simp [scanValue] at h
    | cons c2 cs' =>
      intro p h
      rw [scanValue_cons] at h
      by_cases h1 : (c == '"' && c2 == ']') = true
      · rw [if_pos h1] at h
        obtain rfl : (([] : Str), cs') = p := Option.some.inj h
        simp only [Bool.and_eq_true, beq_iff_eq] at h1
        rw [h1.1, h1.2]
        rfl
      · rw [if_neg h1] at h
        by_cases h2 : (c == '\n') = true
        · rw [if_pos h2] at h
          exact Option.noConfusion h
        · rw [if_neg h2] at h
          cases hs : scanValue (c2 :: cs') with
          | none => rw [hs] at h; exact Option.noConfusion h
          | some q =>
            rw [hs] at h
            obtain rfl : (c :: q.1, q.2) = p := Option.some.inj h
            have := ih q hs
            rw [show (c :: q.1, q.2).1 = c :: q.1 from rfl, List.cons_append,
              ← this]

theorem matchHeader_not_lbrack (c : Char) (cs : Str) (h : ¬ c = '[') :
    matchHeader (c :: cs) = none := by
  simp [matchHeader, beq_eq_false_iff_ne.mpr h]

theorem matchHeader_lbrack (cs : Str) :
    matchHeader ('[' :: cs) =
      (if (cs.takeWhile isWordChar).isEmpty then none
       else if ((cs.dropWhile isWordChar).takeWhile Char.isWhitespace).isEmpty
         then none
       else
         match (cs.dropWhile isWordChar).dropWhile Char.isWhitespace with
         | [] => none
         | d :: r3 =>
           if d == '"' then
             (scanValue r3).map (fun p => ((cs.takeWhile isWordChar, p.1), p.2))
           else none) := rfl

theorem matchHeader_exact (n v rest : Str) (hn : n ≠ [])
    (hnw : ∀ c ∈ n, isWordChar c = true)
    (hv : ∀ c ∈ v, ¬ c = '"' ∧ ¬ c = '\n') :
    matchHeader ('[' :: (n ++ ' ' :: '"' :: (v ++ '"' :: ']' :: rest))) =
      some ((n, v), rest) := by
  obtain ⟨ht1, ht2⟩ := takeWhile_all_append isWordChar n ' '
    ('"' :: (v ++ '"' :: ']' :: rest)) hnw (by decide)
  rw [matchHeader_lbrack, ht1, ht2]
  rw [if_neg (by simp [hn]),
    if_neg (by rw [show ((' ' :: '"' :: (v ++ '"' :: ']' :: rest)).takeWhile
      Char.isWhitespace) = [' '] from rfl]; simp),
    show ((' ' :: '"' :: (v ++ '"' :: ']' :: rest)).dropWhile
      Char.isWhitespace) = '"' :: (v ++ '"' :: ']' :: rest) from rfl]
  show (if ('"' == '"') then
      (scanValue (v ++ '"' :: ']' :: rest)).map (fun p => ((n, p.1), p.2))
    else none) = some ((n, v), rest)
  rw [scanValue_exact v rest hv]
  rfl

theorem matchHeader_rest_lt (cs : Str) (p : (Str × Str) × Str)
    (h : matchHeader cs = some p) : p.2.length < cs.length := by
  cases cs with
  | nil => exact Option.noConfusion h
  | cons c cs' =>
    by_cases hc : c = '['
    · subst hc
      rw [matchHeader_lbrack] at h
      by_cases h1 : (cs'.takeWhile isWordChar).isEmpty = true
      · rw [if_pos h1] at h; exact Option.noConfusion h
      · rw [if_neg h1] at h
        by_cases h2 : ((cs'.dropWhile isWordChar).takeWhile
            Char.isWhitespace).isEmpty = true
        · rw [if_pos h2] at h; exact Option.noConfusion h
        · rw [if_neg h2] at h
          have hdlen : ((cs'.dropWhile isWordChar).dropWhile
              Char.isWhitespace).length ≤ cs'.length := by
            have e1 := congrArg List.length
              (List.takeWhile_append_dropWhile isWordChar cs')
            have e2 := congrArg List.length
              (List.takeWhile_append_dropWhile Char.isWhitespace
                (cs'.dropWhile isWordChar))
            rw [List.length_append] at e1 e2
            omega
          cases hd : (cs'.dropWhile isWordChar).dropWhile Char.isWhitespace with
          | nil => rw [hd] at h; exact Option.noConfusion h
          | cons d r3' =>
            rw [hd] at h
            rw [hd, List.length_cons] at hdlen
            have h' : (if d == '"' then
                (scanValue r3').map
                  (fun p => ((cs'.takeWhile isWordChar, p.1), p.2))
              else none) = some p := h
            by_cases hdq : (d == '"') = true
            · rw [if_pos hdq] at h'
              cases hs : scanValue r3' with
              | none => rw [hs] at h'; exact Option.noConfusion h'
              | some q =>
                rw [hs] at h'
                obtain rfl : ((cs'.takeWhile isWordChar, q.1), q.2) = p :=
                  Option.some.inj h'
                have hq := congrArg List.length (scanValue_append r3' q hs)
                simp only [List.length_append, List.length_cons] at hq
                simp only [List.length_cons]
                omega
            · rw [if_neg hdq] at h'
              exact Option.noConfusion h'
    · rw [matchHeader_not_lbrack c cs' hc] at h
      exact Option.noConfusion h

theorem findHeadersGo_congr : ∀ (f1 f2 : Nat) (cs : Str),
    cs.length ≤ f1 → cs.length ≤ f2 → findHeadersGo f1 cs = findHeadersGo f2 cs := by
  intro f1
  induction f1 with
  | zero =>
    intro f2 cs h1 _
    have hz : cs = [] := List.length_eq_zero.mp (Nat.le_zero.mp h1)
    subst hz
    cases f2 <;> rfl
  | succ f ih =>
    intro f2 cs h1 h2
    cases cs with
    | nil => cases f2 <;> rfl
    | cons c cs' =>
      cases f2 with
      | zero => simp at h2
      | succ f2' =>
        simp only [List.length_cons, Nat.succ_le_succ_iff] at h1 h2
        simp only [findHeadersGo]
        cases hm : matchHeader (c :: cs') with
        | some p =>
          have hlt := matchHeader_rest_lt _ _ hm
          simp only [List.length_cons] at hlt
          show p.1 :: findHeadersGo f p.2 = p.1 :: findHeadersGo f2' p.2
          congr 1
          exact ih f2' p.2 (by omega) (by omega)
        | none => exact ih f2' cs' h1 h2

theorem findHeaders_cons_none (c : Char) (cs : Str)
    (h : matchHeader (c :: cs) = none) :
    findHeaders (c :: cs) = findHeaders cs := by
  unfold findHeaders
  simp only [List.length_cons, findHeadersGo, h]

theorem findHeaders_match (cs : Str) (p : (Str × Str) × Str) (hne : cs ≠ [])
    (h : matchHeader cs = some p) :
    findHeaders cs = p.1 :: findHeaders p.2 := by
  cases cs with
  | nil => exact absurd rfl hne
  | cons c cs' =>
    unfold findHeaders
    simp only [List.length_cons, findHeadersGo, h]
    congr 1
    have hlt := matchHeader_rest_lt _ _ h
    simp only [List.length_cons] at hlt
    exact findHeadersGo_congr cs'.length p.2.length p.2 (by omega) le_rfl

theorem findHeaders_no_lbrack (cs : Str) (h : ∀ c ∈ cs, ¬ c = '[') :
    findHeaders cs = [] := by
  induction cs with
  | nil => rfl
  | cons c cs' ih =>
    rw [findHeaders_cons_none c cs'
      (matchHeader_not_lbrack c cs' (h c (List.mem_cons_self _ _)))]
    exact ih (fun b hb => h b (List.mem_cons_of_mem _ hb))

theorem findHeaders_render (hs : List (Str × Str)) (moves : Str)
    (hhs : ∀ q ∈ hs, q.1 ≠ [] ∧ (∀ c ∈ q.1, isWordChar c = true) ∧
      ∀ c ∈ q.2, ¬ c = '"' ∧ ¬ c = '\n')
    (hm : ∀ c ∈ moves, ¬ c = '[') :
    findHeaders (renderHeaderLines hs ++ '\n' :: moves) = hs := by
  induction hs with
  | nil =>
    rw [show renderHeaderLines [] ++ '\n' :: moves = '\n' :: moves from rfl,
      findHeaders_cons_none '\n' moves
        (matchHeader_not_lbrack '\n' moves (by decide))]
    exact findHeaders_no_lbrack moves hm
  | cons q hs' ih =>
    obtain ⟨hq1, hq2, hq3⟩ := hhs q (List.mem_cons_self _ _)
    have hshape : renderHeaderLines (q :: hs') ++ '\n' :: moves =
        '[' :: (q.1 ++ ' ' :: '"' ::
          (q.2 ++ '"' :: ']' :: ('\n' :: (renderHeaderLines hs' ++ '\n' :: moves)))) := by
      simp [renderHeaderLines, renderHeader, List.append_assoc]
    rw [hshape,
      findHeaders_match _ ((q.1, q.2), '\n' :: (renderHeaderLines hs' ++ '\n' :: moves))
        (by simp) (matchHeader_exact q.1 q.2 _ hq1 hq2 hq3),
      findHeaders_cons_none '\n' _ (matchHeader_not_lbrack '\n' _ (by decide)),
      ih (fun r hr => hhs r (List.mem_cons_of_mem _ hr))]

/-- C6: for a game segment made of header lines of the form
`[<Name> "<Value>"]` followed by a blank line and move text, every header
line contributes its (Name, Value) pair to `findall`, in order; and in the
resulting record the value stored for a tag name is the one from the last
header line bearing that name (last-wins). -/
theorem convertGame_lastWins (hs : List (Str × Str)) (moves gid : Str)
    (hhs : ∀ q ∈ hs, q.1 ≠ [] ∧ (∀ c ∈ q.1, isWordChar c = true) ∧
      ∀ c ∈ q.2, ¬ c = '"' ∧ ¬ c = '\n')
    (hm : ∀ c ∈ moves, ¬ c = '[') :
    findHeaders (renderHeaderLines hs ++ '\n' :: moves) = hs ∧
    ∀ k p, ¬ k = "moves".data → ¬ k = "game_id".data →
      (hs.filter (fun q => q.1 == k)).getLast? = some p →
      dictGet (convertGame (renderHeaderLines hs ++ '\n' :: moves) gid) k =
        some p.2 := by
  have hfind := findHeaders_render hs moves hhs hm
  refine ⟨hfind, ?_⟩
  intro k p hk1 hk2 hlast
  have hcg : convertGame (renderHeaderLines hs ++ '\n' :: moves) gid =
      dictInsert
        (dictInsert
          ((findHeaders (renderHeaderLines hs ++ '\n' :: moves)).foldl
            (fun d q => dictInsert d q.1 q.2) [])
          "moves".data (gameMoves (renderHeaderLines hs ++ '\n' :: moves)))
        "game_id".data gid := rfl
  rw [hcg, dictGet_insert_other _ _ _ _ (Ne.symm hk2),
    dictGet_insert_other _ _ _ _ (Ne.symm hk1), hfind]
  exact foldl_dictInsert_get_last hs k [] p hlast

theorem convertGame_lastWins_witness :
    ((∀ q ∈ ([("Event".data, "A".data), ("Site".data, "S".data),
        ("Event".data, "C".data)] : List (Str × Str)),
      q.1 ≠ [] ∧ (∀ c ∈ q.1, isWordChar c = true) ∧
        ∀ c ∈ q.2, ¬ c = '"' ∧ ¬ c = '\n') ∧
      (∀ c ∈ "1. e4 e5 1-0".data, ¬ c = '[')) ∧
    findHeaders (renderHeaderLines [("Event".data, "A".data),
        ("Site".data, "S".data), ("Event".data, "C".data)] ++
        '\n' :: "1. e4 e5 1-0".data) =
      [("Event".data, "A".data), ("Site".data, "S".data),
        ("Event".data, "C".data)] ∧
    dictGet (convertGame (renderHeaderLines [("Event".data, "A".data),
        ("Site".data, "S".data), ("Event".data, "C".data)] ++
        '\n' :: "1. e4 e5 1-0".data) "u1".data) "Event".data =
      some "C".data :=
  ⟨⟨by decide, by decide⟩,
    (convertGame_lastWins [("Event".data, "A".data), ("Site".data, "S".data),
      ("Event".data, "C".data)] "1. e4 e5 1-0".data "u1".data
      (by decide) (by decide)).1,
    (convertGame_lastWins [("Event".data, "A".data), ("Site".data, "S".data),
      ("Event".data, "C".data)] "1. e4 e5 1-0".data "u1".data
      (by decide) (by decide)).2 "Event".data ("Event".data, "C".data)
      (by decide) (by decide) (by decide)⟩

theorem splitFirst_cons (c c2 : Char) (cs : Str) :
    splitFirst (c :: c2 :: cs) =
      if c == '\n' && c2 == '\n' then some ([], cs)
      else (splitFirst (c2 :: cs)).map (fun p => (c :: p.1, p.2)) := by
  simp only [splitFirst]
  cases splitFirst (c2 :: cs) <;> rfl

theorem containsBlankSep_cons (c c2 : Char) (cs : Str) :
    containsBlankSep (c :: c2 :: cs) =
      ((c == '\n' && c2 == '\n') || containsBlankSep (c2 :: cs)) := rfl

theorem splitFirst_of_not_contains (g : Str) :
    containsBlankSep g = false → splitFirst g = none := by
  induction g with
  | nil => intro _; rfl
  | cons c rest ih =>
    cases rest with
    | nil => intro _; rfl
    | cons c2 cs =>
      intro h
      rw [containsBlankSep_cons, Bool.or_eq_false_iff] at h
      rw [splitFirst_cons, if_neg (by simp [h.1]), ih h.2]
      rfl

theorem splitFirst_exact (pre : Str) : ∀ (post : Str),
    containsBlankSep (pre ++ ['\n']) = false →
    splitFirst (pre ++ '\n' :: '\n' :: post) = some (pre, post) := by
  induction pre with
  | nil => intro post _; rfl
  | cons a pre' ih =>
    intro post h
    cases pre' with
    | nil =>
      have ha : (a == '\n') = false := by
        rw [show ([a] ++ ['\n'] : Str) = a :: '\n' :: [] from rfl,
          containsBlankSep_cons, Bool.or_eq_false_iff] at h
        simpa using h.1
      rw [show ([a] ++ '\n' :: '\n' :: post : Str) =
          a :: '\n' :: '\n' :: post from rfl,
        splitFirst_cons, if_neg (by simp [ha]),
        show splitFirst ('\n' :: '\n' :: post) = some ([], post) from rfl]
      rfl
    | cons b pre'' =>
      rw [show ((a :: b :: pre'') ++ ['\n'] : Str) =
          a :: b :: (pre'' ++ ['\n']) from rfl,
        containsBlankSep_cons, Bool.or_eq_false_iff] at h
      have ih' := ih post h.2
      rw [show ((b :: pre'') ++ '\n' :: '\n' :: post : Str) =
          b :: (pre'' ++ '\n' :: '\n' :: post) from rfl] at ih'
      rw [show ((a :: b :: pre'') ++ '\n' :: '\n' :: post : Str) =
          a :: b :: (pre'' ++ '\n' :: '\n' :: post) from rfl,
        splitFirst_cons, if_neg (by simp [h.1]), ih']
      rfl

/-- C7: the record's `moves` field is the text following the first
blank-line separator of the segment, stripped of surrounding whitespace;
and when the segment contains no blank-line separator, it is all lines not
starting with `[`, joined in original order and trimmed. -/
theorem convertGame_moves (g gid : Str) :
    (∀ pre post, g = pre ++ '\n' :: '\n' :: post →
      containsBlankSep (pre ++ ['\n']) = false →
      dictGet (convertGame g gid) "moves".data = some (stripChars post)) ∧
    (containsBlankSep g = false →
      dictGet (convertGame g gid) "moves".data =
        some (stripChars (joinNL ((splitLinesPy g).filter
          (fun l => !("[".data.isPrefixOf l)))))) := by
  have hget : dictGet (convertGame g gid) "moves".data = some (gameMoves g) := by
    have hcg : convertGame g gid =
        dictInsert
          (dictInsert
            ((findHeaders g).foldl (fun d q => dictInsert d q.1 q.2) [])
            "moves".data (gameMoves g))
          "game_id".data gid := rfl
    rw [hcg, dictGet_insert_other _ _ _ _ (by decide)]
    exact dictGet_insert_self _ _ _
  constructor
  · intro pre post hg hpre
    subst hg
    rw [hget]
    unfold gameMoves
    rw [splitFirst_exact pre post hpre]
  · intro hnb
    rw [hget]
    unfold gameMoves
    rw [splitFirst_of_not_contains g hnb]

theorem convertGame_moves_witness :
    ("[A \"B\"]\n\n 1. e4 ".data =
        "[A \"B\"]".data ++ '\n' :: '\n' :: " 1. e4 ".data ∧
      containsBlankSep ("[A \"B\"]".data ++ ['\n']) = false ∧
      dictGet (convertGame "[A \"B\"]\n\n 1. e4 ".data "u2".data)
        "moves".data = some (stripChars " 1. e4 ".data)) ∧
    (containsBlankSep "[A \"B\"]\n1. e4".data = false ∧
      dictGet (convertGame "[A \"B\"]\n1. e4".data "u2".data) "moves".data =
        some (stripChars (joinNL ((splitLinesPy "[A \"B\"]\n1. e4".data).filter
          (fun l => !("[".data.isPrefixOf l)))))) :=
  ⟨⟨by decide, by decide,
    (convertGame_moves "[A \"B\"]\n\n 1. e4 ".data "u2".data).1
      "[A \"B\"]".data " 1. e4 ".data (by decide) (by decide)⟩,
   ⟨by decide,
    (convertGame_moves "[A \"B\"]\n1. e4".data "u2".data).2 (by decide)⟩⟩

/-! Schema lemmas (C4). -/

theorem getAvroSchema_cons (r : List (Str × Str))
    (rs : List (List (Str × Str))) :
    getAvroSchema (r :: rs) =
      Except.ok
        { ns := "com.example.pgn".data
          rtype := "record".data
          rname := "Game".data
          fields := (dictKeys r).map (fun k => ⟨k, "string".data⟩) } := rfl

theorem dictKeys_foldl (hs : List (Str × Str)) :
    ∀ (d0 : List (Str × Str)), (dictKeys d0 ++ hs.map Prod.fst).Nodup →
    dictKeys (hs.foldl (fun d q => dictInsert d q.1 q.2) d0) =
      dictKeys d0 ++ hs.map Prod.fst := by
  induction hs with
  | nil => intro d0 _; simp
  | cons q hs' ih =>
    intro d0 hnd
    have hq : q.1 ∉ dictKeys d0 := by
      intro hmem
      rw [List.nodup_append] at hnd
      exact hnd.2.2 hmem (List.mem_cons_self _ _)
    have hnd' : (dictKeys (dictInsert d0 q.1 q.2) ++ hs'.map Prod.fst).Nodup := by
      rw [dictKeys_insert_new d0 q.1 q.2 hq]
      simpa [List.append_assoc] using hnd
    simp only [List.foldl_cons]
    rw [ih (dictInsert d0 q.1 q.2) hnd', dictKeys_insert_new d0 q.1 q.2 hq]
    simp [List.append_assoc]

theorem dictKeys_convertGame (g gid : Str)
    (hnd : ((findHeaders g).map Prod.fst).Nodup)
    (hm : "moves".data ∉ (findHeaders g).map Prod.fst)
    (hg : "game_id".data ∉ (findHeaders g).map Prod.fst) :
    dictKeys (convertGame g gid) =
      (findHeaders g).map Prod.fst ++ ["moves".data, "game_id".data] := by
  have hcg : convertGame g gid =
      dictInsert
        (dictInsert
          ((findHeaders g).foldl (fun d q => dictInsert d q.1 q.2) [])
          "moves".data (gameMoves g))
        "game_id".data gid := rfl
  have h1 : dictKeys ((findHeaders g).foldl
      (fun d q => dictInsert d q.1 q.2) []) = (findHeaders g).map Prod.fst := by
    have := dictKeys_foldl (findHeaders g) [] (by simpa using hnd)
    simpa using this
  have h2 : dictKeys (dictInsert ((findHeaders g).foldl
      (fun d q => dictInsert d q.1 q.2) []) "moves".data (gameMoves g)) =
      (findHeaders g).map Prod.fst ++ ["moves".data] := by
    rw [dictKeys_insert_new _ _ _ (by rw [h1]; exact hm), h1]
  rw [hcg, dictKeys_insert_new _ _ _ (by
      rw [h2]
      simp only [List.mem_append, List.mem_singleton, not_or]
      exact ⟨hg, by decide⟩), h2]
  simp

/-- C4: for a run on a non-empty list of games, the inferred schema's field
list is exactly the first record's keys in insertion order (tag names in
encounter order, then `moves`, then `game_id`, provided the tag names are
distinct and none of them is `moves` or `game_id`), every field typed
`string`; and the schema is independent of every record after the first. -/
theorem getAvroSchema_firstRecord (g : Str) (gs gs' : List Str)
    (ids : Nat → Str) (hnd : ((findHeaders g).map Prod.fst).Nodup)
    (hm : "moves".data ∉ (findHeaders g).map Prod.fst)
    (hg : "game_id".data ∉ (findHeaders g).map Prod.fst) :
    getAvroSchema (convertPgnToDict (g :: gs) ids) =
      Except.ok
        { ns := "com.example.pgn".data
          rtype := "record".data
          rname := "Game".data
          fields := ((findHeaders g).map Prod.fst ++
            ["moves".data, "game_id".data]).map
              (fun k => ⟨k, "string".data⟩) } ∧
    getAvroSchema (convertPgnToDict (g :: gs) ids) =
      getAvroSchema (convertPgnToDict (g :: gs') ids) := by
  constructor
  · rw [convertPgnToDict_cons, getAvroSchema_cons,
      dictKeys_convertGame g (ids 0) hnd hm hg]
  · rw [convertPgnToDict_cons, convertPgnToDict_cons, getAvroSchema_cons,
      getAvroSchema_cons]

theorem getAvroSchema_firstRecord_witness :
    (((findHeaders "[Event \"A\"]\n\n1. e4 1-0".data).map Prod.fst).Nodup ∧
      "moves".data ∉ (findHeaders "[Event \"A\"]\n\n1. e4 1-0".data).map Prod.fst ∧
      "game_id".data ∉ (findHeaders "[Event \"A\"]\n\n1. e4 1-0".data).map Prod.fst) ∧
    getAvroSchema (convertPgnToDict ["[Event \"A\"]\n\n1. e4 1-0".data]
        (fun _ => "i".data)) =
      Except.ok
        { ns := "com.example.pgn".data
          rtype := "record".data
          rname := "Game".data
          fields := ((findHeaders "[Event \"A\"]\n\n1. e4 1-0".data).map Prod.fst ++
            ["moves".data, "game_id".data]).map
              (fun k => ⟨k, "string".data⟩) } ∧
    getAvroSchema (convertPgnToDict ["[Event \"A\"]\n\n1. e4 1-0".data]
        (fun _ => "i".data)) =
      getAvroSchema (convertPgnToDict ["[Event \"A\"]\n\n1. e4 1-0".data,
        "zzz".data] (fun _ => "i".data)) :=
  ⟨⟨by decide, by decide, by decide⟩,
    getAvroSchema_firstRecord "[Event \"A\"]\n\n1. e4 1-0".data [] ["zzz".data]
      (fun _ => "i".data) (by decide) (by decide) (by decide)⟩

/-! Manifest lemmas (C8). -/

theorem convertGame_gameId (g gid : Str) :
    dictGet (convertGame g gid) "game_id".data = some gid := by
  have hcg : convertGame g gid =
      dictInsert
        (dictInsert
          ((findHeaders g).foldl (fun d q => dictInsert d q.1 q.2) [])
          "moves".data (gameMoves g))
        "game_id".data gid := rfl
  rw [hcg]
  exact dictGet_insert_self _ _ _

theorem manifestContent_convert (games : List Str) : ∀ ids : Nat → Str,
    manifestContent (convertPgnToDict games ids) =
      ((List.range games.length).map (fun i => ids i ++ ['\n'])).flatten := by
  induction games with
  | nil => intro ids; rfl
  | cons g gs ih =>
    intro ids
    rw [convertPgnToDict_cons]
    show (dictGetD (convertGame g (ids 0)) "game_id".data "unknown".data ++
        ['\n']) ++ manifestContent (convertPgnToDict gs (fun n => ids (n + 1))) = _
    rw [show dictGetD (convertGame g (ids 0)) "game_id".data "unknown".data =
        ids 0 from by unfold dictGetD; rw [convertGame_gameId]; rfl,
      ih (fun n => ids (n + 1)), List.length_cons, List.range_succ_eq_map]
    simp [List.map_map, Function.comp_def]

theorem splitSep_cons (c : Char) (cs : Str) :
    splitSep (c :: cs) =
      if c == '\n' then [] :: splitSep cs
      else
        match splitSep cs with
        | p :: ps => (c :: p) :: ps
        | [] => [[c]] := rfl

theorem splitSep_line (l : Str) (r : Str) (hl : ∀ c ∈ l, ¬ c = '\n') :
    splitSep (l ++ '\n' :: r) = l :: splitSep r := by
  induction l with
  | nil =>
    rw [List.nil_append, splitSep_cons, if_pos (by rfl)]
  | cons a l' ih =>
    have ha : (a == '\n') = false :=
      beq_eq_false_iff_ne.mpr (hl a (List.mem_cons_self _ _))
    rw [List.cons_append, splitSep_cons, if_neg (by simp [ha]),
      ih (fun b hb => hl b (List.mem_cons_of_mem _ hb))]

theorem splitSep_flatten (ls : List Str)
    (hl : ∀ l ∈ ls, ∀ c ∈ l, ¬ c = '\n') :
    splitSep ((ls.map (fun l => l ++ ['\n'])).flatten) = ls ++ [[]] := by
  induction ls with
  | nil => rfl
  | cons l ls' ih =>
    simp only [List.map_cons, List.flatten_cons]
    rw [List.append_assoc,
      show (['\n'] ++ (ls'.map (fun l => l ++ ['\n'])).flatten : Str) =
        '\n' :: (ls'.map (fun l => l ++ ['\n'])).flatten from rfl,
      splitSep_line l _ (hl l (List.mem_cons_self _ _)),
      ih (fun m hm => hl m (List.mem_cons_of_mem _ hm))]
    rfl

theorem splitLinesPy_manifest (ls : List Str)
    (hl : ∀ l ∈ ls, ∀ c ∈ l, ¬ c = '\n') :
    splitLinesPy ((ls.map (fun l => l ++ ['\n'])).flatten) = ls := by
  cases ls with
  | nil => rfl
  | cons l ls' =>
    have hs := splitSep_flatten (l :: ls') hl
    rcases hcon : ((l :: ls').map (fun l => l ++ ['\n'])).flatten with _ | ⟨c, cs⟩
    · exfalso
      rw [List.map_cons, List.flatten_cons] at hcon
      simp [List.append_eq_nil] at hcon
    · have hbody : splitLinesPy (c :: cs) =
          (match (splitSep (c :: cs)).getLast? with
           | some [] => (splitSep (c :: cs)).dropLast
           | _ => splitSep (c :: cs)) := rfl
      rw [hcon] at hs
      rw [hbody, hs, List.getLast?_concat]
      exact List.dropLast_concat

theorem convertPgnToDict_length (games : List Str) (ids : Nat → Str) :
    (convertPgnToDict games ids).length = games.length := by
  simp [convertPgnToDict]

/-- C8: for every run, the manifest written by the serializer holds one
`game_id` per line, its line count equals the number of serialized records,
and (the id supply being injective) it contains no duplicate lines. -/
theorem manifest_complete (games : List Str) (ids : Nat → Str)
    (schema : AvroSchema) (fs : FS)
    (hinj : Function.Injective ids) (hnl : ∀ n, '\n' ∉ ids n) :
    dictGet (writeAvroFile (convertPgnToDict games ids) schema fs)
        "games".data =
      some (FileData.text (manifestContent (convertPgnToDict games ids))) ∧
    splitLinesPy (manifestContent (convertPgnToDict games ids)) =
      (List.range games.length).map ids ∧
    (splitLinesPy (manifestContent (convertPgnToDict games ids))).length =
      (convertPgnToDict games ids).length ∧
    (splitLinesPy (manifestContent (convertPgnToDict games ids))).Nodup := by
  have hlines : splitLinesPy (manifestContent (convertPgnToDict games ids)) =
      (List.range games.length).map ids := by
    rw [manifestContent_convert games ids,
      show (List.range games.length).map (fun i => ids i ++ ['\n']) =
        ((List.range games.length).map ids).map (fun l => l ++ ['\n']) from by
        rw [List.map_map]; rfl]
    refine splitLinesPy_manifest _ ?_
    intro l hlmem c hc
    rw [List.mem_map] at hlmem
    obtain ⟨i, _, rfl⟩ := hlmem
    exact fun hceq => hnl i (hceq ▸ hc)
  refine ⟨dictGet_insert_self _ _ _, hlines, ?_, ?_⟩
  · rw [hlines, List.length_map, List.length_range, convertPgnToDict_length]
  · rw [hlines]
    exact List.Nodup.map hinj (List.nodup_range _)

theorem manifest_complete_witness :
    (Function.Injective (fun n => List.replicate (n + 1) 'i') ∧
      ∀ n, '\n' ∉ List.replicate (n + 1) 'i') ∧
    (dictGet (writeAvroFile
          (convertPgnToDict ["a".data, "b".data]
            (fun n => List.replicate (n + 1) 'i'))
          ⟨"ns".data, "record".data, "Game".data, []⟩ []) "games".data =
        some (FileData.text (manifestContent (convertPgnToDict
          ["a".data, "b".data] (fun n => List.replicate (n + 1) 'i')))) ∧
      splitLinesPy (manifestContent (convertPgnToDict ["a".data, "b".data]
          (fun n => List.replicate (n + 1) 'i'))) =
        (List.range (["a".data, "b".data] : List Str).length).map
          (fun n => List.replicate (n + 1) 'i') ∧
      (splitLinesPy (manifestContent (convertPgnToDict ["a".data, "b".data]
          (fun n => List.replicate (n + 1) 'i')))).length =
        (convertPgnToDict ["a".data, "b".data]
          (fun n => List.replicate (n + 1) 'i')).length ∧
      (splitLinesPy (manifestContent (convertPgnToDict ["a".data, "b".data]
          (fun n => List.replicate (n + 1) 'i')))).Nodup) :=
  ⟨⟨fun a b h => by simpa using congrArg List.length h,
    fun n h => absurd ((List.mem_replicate.mp h).2) (by decide)⟩,
   manifest_complete ["a".data, "b".data] (fun n => List.replicate (n + 1) 'i')
    ⟨"ns".data, "record".data, "Game".data, []⟩ []
    (fun a b h => by simpa using congrArg List.length h)
    (fun n h => absurd ((List.mem_replicate.mp h).2) (by decide))⟩
